import Mathlib

/-!
Verification of the GenericSensor measurement-conditioning library.

Shallow embedding conventions:
* C `float` arithmetic is modelled over `ℚ` (exact field arithmetic), except
  the RTD inversion, which uses `sqrtf` and is modelled over `ℝ` with
  `Real.sqrt`.
* An array write or read whose index falls outside the C array's bounds is
  modelled by an `Option` result: `none` means the C program performed an
  out-of-bounds access (undefined behaviour).
* The two parallel 8-slot table arrays `cfg.f[0..7]` (x) and `cfg.f[8..15]`
  (f(x)) together with `cfg.u[POS_TABLE_SIZE]` are modelled by the list of
  live (x, f(x)) pairs, i.e. the first `tableSize` entries of the two arrays;
  slots at or beyond `tableSize` are never read by the table operations and
  always hold 0.
-/

namespace GenericSensor

/-- Arduino `constrain(amt, low, high)` on unsigned integers:
`amt < low ? low : (amt > high ? high : amt)`. -/
def constrainN (amt low high : ℕ) : ℕ :=
  if amt < low then low else if amt > high then high else amt

/-- Write `v` at index `j` of `l`; `none` when `j` is out of bounds,
modelling an out-of-bounds C array write (undefined behaviour). -/
def writeAt (l : List ℚ) (j : ℕ) (v : ℚ) : Option (List ℚ) :=
  if j < l.length then some (l.set j v) else none

/-- Write `v` at index `j` of a list of 32-bit words (`cfg.unit`). -/
def writeAtN (l : List ℕ) (j : ℕ) (v : ℕ) : Option (List ℕ) :=
  if j < l.length then some (l.set j v) else none

/-- `ProcessorConfig`: 8 bytes `u`, 2 words `unit`, 16 floats `f`. -/
structure ProcessorConfig where
  u : List ℕ
  unit : List ℕ
  f : List ℚ
  deriving DecidableEq, Repr

/-- The zero-initialized record built by `BaseMeasurementProcessor()`. -/
def cfg0 : ProcessorConfig :=
  { u := List.replicate 8 0, unit := List.replicate 2 0, f := List.replicate 16 0 }

/-- `BaseMeasurementProcessor::setFloat`: `idx = constrain(idx, 0, 15); cfg.f[idx] = f;`. -/
def setFloat (c : ProcessorConfig) (idx : ℕ) (v : ℚ) : Option ProcessorConfig :=
  (writeAt c.f (constrainN idx 0 15) v).map (fun l => { c with f := l })

/-- `BaseMeasurementProcessor::setByte`: `idx = constrain(idx, 0, 11); cfg.u[idx] = u;`
(`cfg.u` has 8 slots). -/
def setByte (c : ProcessorConfig) (idx : ℕ) (v : ℕ) : Option ProcessorConfig :=
  (writeAtN c.u (constrainN idx 0 11) v).map (fun l => { c with u := l })

/-- `BaseMeasurementProcessor::setUnits`: `cfg.unit[idx] = packedUnits;` (no clamp,
`cfg.unit` has 2 slots). -/
def setUnits (c : ProcessorConfig) (idx : ℕ) (v : ℕ) : Option ProcessorConfig :=
  (writeAtN c.unit idx v).map (fun l => { c with unit := l })

/-! ## Filters -/

/-- Runtime state of `EMAFilter`: `alpha` lives in `cfg.f[0]`, plus the
private accumulator `_ema` and the priming flag. -/
structure EMAState where
  alpha : ℚ
  ema : ℚ
  initialized : Bool
  deriving DecidableEq, Repr

/-- `EMAFilter(a)`. -/
def emaInit (a : ℚ) : EMAState := { alpha := a, ema := 0, initialized := false }

/-- `EMAFilter::apply`. -/
def emaApply (s : EMAState) (value : ℚ) : ℚ × EMAState :=
  if s.initialized = false then
    (value, { s with ema := value, initialized := true })
  else
    let e := s.ema * (1 - s.alpha) + value * s.alpha
    (e, { s with ema := e })

/-- Runtime state of `AlphaBetaFilter`. -/
structure ABState where
  alpha : ℚ
  beta : ℚ
  level : ℚ
  trend : ℚ
  initialized : Bool
  deriving DecidableEq, Repr

/-- `AlphaBetaFilter(a, b)`. -/
def abInit (a b : ℚ) : ABState :=
  { alpha := a, beta := b, level := 0, trend := 0, initialized := false }

/-- `AlphaBetaFilter::apply`. -/
def abApply (s : ABState) (value : ℚ) : ℚ × ABState :=
  if s.initialized = false then
    (value, { s with level := value, trend := 0, initialized := true })
  else
    let level := s.alpha * value + (1 - s.alpha) * (s.level + s.trend)
    let trend := s.beta * (level - s.level) + (1 - s.beta) * s.trend
    (level + trend, { s with level := level, trend := trend })

/-- Runtime state of `AdaptiveAbsoluteEMAFilter`: `alpha_min` is `cfg.f[0]`,
`delta_max` is `cfg.f[1]`. -/
structure AdaptState where
  alpha_min : ℚ
  delta_max : ℚ
  alpha : ℚ
  prev_filtered : ℚ
  initialized : Bool
  deriving DecidableEq, Repr

/-- `AdaptiveAbsoluteEMAFilter(a_min, d_max)`. -/
def adaptInit (a_min d_max : ℚ) : AdaptState :=
  { alpha_min := a_min, delta_max := d_max, alpha := a_min,
    prev_filtered := 0, initialized := false }

/-- `AdaptiveAbsoluteEMAFilter::mapf`: clamps `x` to `[in_min, in_max]` then
applies the linear map.  The C expression divides by `in_max - in_min`;
when that difference is zero the float division has no real value
(0/0 → NaN, x/0 → ±inf), modelled as `none`. -/
def mapf (x in_min in_max out_min out_max : ℚ) : Option ℚ :=
  let x1 := if x < in_min then in_min else x
  let x2 := if x1 > in_max then in_max else x1
  if in_max - in_min = 0 then none
  else some ((x2 - in_min) * (out_max - out_min) / (in_max - in_min) + out_min)

/-- `AdaptiveAbsoluteEMAFilter::apply`. -/
def adaptApply (s : AdaptState) (value : ℚ) : Option (ℚ × AdaptState) :=
  if s.initialized = false then
    some (value, { s with prev_filtered := value, initialized := true })
  else
    let delta0 := |value - s.prev_filtered|
    let delta := if delta0 > s.delta_max then s.delta_max else delta0
    match mapf delta 0 s.delta_max s.alpha_min 1 with
    | none => none
    | some alpha =>
      let pf := alpha * value + (1 - alpha) * s.prev_filtered
      some (pf, { s with alpha := alpha, prev_filtered := pf })

/-- Runtime state of `KalmanFilter`: `measurementNoise` (R) is `cfg.f[0]`,
`processNoise` (Q) is `cfg.f[1]`. -/
structure KalmanState where
  r : ℚ
  q : ℚ
  estimate : ℚ
  error_estimate : ℚ
  initialized : Bool
  deriving DecidableEq, Repr

/-- `KalmanFilter(r, q)`. -/
def kalmanInit (r q : ℚ) : KalmanState :=
  { r := r, q := q, estimate := 0, error_estimate := 1, initialized := false }

/-- `KalmanFilter::apply`. -/
def kalmanApply (s : KalmanState) (value : ℚ) : ℚ × KalmanState :=
  if s.initialized = false then
    (value, { s with estimate := value, initialized := true })
  else
    let ee := s.error_estimate + s.q
    let kalman_gain := ee / (ee + s.r)
    let est := s.estimate + kalman_gain * (value - s.estimate)
    (est, { s with estimate := est, error_estimate := ee * (1 - kalman_gain) })

/-- The Kalman gain the next `apply` call will compute from state `s`. -/
def kalmanGain (s : KalmanState) : ℚ :=
  (s.error_estimate + s.q) / (s.error_estimate + s.q + s.r)

/-- Runtime state of `Median3Filter`: 3-slot ring buffer, write index, flag. -/
structure Median3State where
  v0 : ℚ
  v1 : ℚ
  v2 : ℚ
  index : ℕ
  initialized : Bool
  deriving DecidableEq, Repr

/-- `Median3Filter()`. -/
def median3Init : Median3State :=
  { v0 := 0, v1 := 0, v2 := 0, index := 0, initialized := false }

/-- `Median3Filter::median`. -/
def median3 (a b c : ℚ) : ℚ :=
  if (a ≥ b ∧ a ≤ c) ∨ (a ≥ c ∧ a ≤ b) then a
  else if (b ≥ a ∧ b ≤ c) ∨ (b ≥ c ∧ b ≤ a) then b
  else c

/-- `Median3Filter::apply`. -/
def median3Apply (s : Median3State) (value : ℚ) : ℚ × Median3State :=
  let s1 :=
    if s.index = 0 then { s with v0 := value }
    else if s.index = 1 then { s with v1 := value }
    else { s with v2 := value }
  let s2 := { s1 with index := (s1.index + 1) % 3 }
  let s3 := if s2.initialized = false ∧ s2.index = 0 then
    { s2 with initialized := true } else s2
  if s3.initialized = false then (value, s3)
  else (median3 s3.v0 s3.v1 s3.v2, s3)

/-! ## Table processors

The live prefix of the parallel arrays `x = cfg.f[0..7]`, `fx = cfg.f[8..15]`
(entries `0 ≤ i < tableSize`) is modelled as a list of (x, f(x)) pairs. -/

/-- One pass of the inner loop of `BaseTableProcessor::sortAscending`
starting from the element `a` at position `i`: for each later element `b`,
`if (x(j) < x(i)) swap`.  Returns the value left at position `i` after the
pass together with the later elements after the swaps. -/
def innerPass (a : ℚ × ℚ) : List (ℚ × ℚ) → (ℚ × ℚ) × List (ℚ × ℚ)
  | [] => (a, [])
  | b :: rest =>
    if b.1 < a.1 then ((innerPass b rest).1, a :: (innerPass b rest).2)
    else ((innerPass a rest).1, b :: (innerPass a rest).2)

/-- The outer loop of `BaseTableProcessor::sortAscending`; the fuel
parameter counts the remaining outer-loop iterations, which the C loop
bounds by the live prefix length. -/
def sortAscendingAux : ℕ → List (ℚ × ℚ) → List (ℚ × ℚ)
  | 0, _ => []
  | _, [] => []
  | n + 1, a :: rest => (innerPass a rest).1 :: sortAscendingAux n (innerPass a rest).2

/-- `BaseTableProcessor::sortAscending`: the selection-sort double loop on
the live prefix. -/
def sortAscending (l : List (ℚ × ℚ)) : List (ℚ × ℚ) :=
  sortAscendingAux l.length l

/-- `BaseTableProcessor::pushPoint`. -/
def pushPoint (pts : List (ℚ × ℚ)) (xv fv : ℚ) : Bool × List (ℚ × ℚ) :=
  if pts.length ≥ 8 then (false, pts)
  else (true, sortAscending (pts ++ [(xv, fv)]))

/-- `BaseTableProcessor::deletePoint`: the shift loop compacts entries
`idx..size-2`; the freed last slot is zeroed (outside the live prefix) and
`tableSize` decrements, i.e. the live prefix loses entry `idx`. -/
def deletePoint (pts : List (ℚ × ℚ)) (idx : ℕ) : Bool × List (ℚ × ℚ) :=
  if idx ≥ pts.length then (false, pts)
  else (true, pts.eraseIdx idx)

/-- A table-mutation request, for reasoning about arbitrary call sequences. -/
inductive TableOp where
  | push (xv fv : ℚ)
  | del (idx : ℕ)
  deriving DecidableEq, Repr

/-- Apply one `TableOp` to the live point list. -/
def tableStep (pts : List (ℚ × ℚ)) : TableOp → List (ℚ × ℚ)
  | .push xv fv => (pushPoint pts xv fv).2
  | .del idx => (deletePoint pts idx).2

/-- Run a sequence of table operations from the empty (zero-initialized) table. -/
def runTableOps (ops : List TableOp) : List (ℚ × ℚ) :=
  ops.foldl tableStep []

/-- `CubicSplineTable::interpolateCubicSpline` (the `tbd` placeholder). -/
def interpolateCubicSpline (value : ℚ) : ℚ :=
  value

/-- `CubicSplineTable::apply`.  The table contents are a parameter because
the member function can read them, though this body does not. -/
def cubicSplineApply (_pts : List (ℚ × ℚ)) (value : ℚ) : ℚ :=
  interpolateCubicSpline value

/-! ## Monotone cubic Hermite spline table -/

/-- Read `cfg.f[OFFSET_FX + i]` through the live-prefix model: a slot below
`tableSize` holds the stored `f(x)`, any other slot holds 0. -/
def fxAt (pts : List (ℚ × ℚ)) (i : ℕ) : ℚ :=
  ((pts[i]?).map Prod.snd).getD 0

/-- Read `cfg.f[i]` (the x array) through the live-prefix model. -/
def xAt (pts : List (ℚ × ℚ)) (i : ℕ) : ℚ :=
  ((pts[i]?).map Prod.fst).getD 0

/-- The segment slopes `delta[i] = (fx(i+1) - fx(i)) / (x(i+1) - x(i))`,
one per consecutive pair of live points. -/
def segSlopes (pts : List (ℚ × ℚ)) : List ℚ :=
  List.zipWith (fun p q => (q.2 - p.2) / (q.1 - p.1)) pts pts.tail

/-- Collect a list of reads: `none` as soon as any single read was out of
bounds. -/
def collectReads : List (Option ℚ) → Option (List ℚ)
  | [] => some []
  | o :: rest => do
    let v ← o
    let vs ← collectReads rest
    pure (v :: vs)

/-- `CubicHermiteMonotonicSplineTable::updateSlopes`: recomputes `_m[i]` for
`0 ≤ i < size` from the segment-slope array `delta` (a local array of
`size - 1` floats).  `_m[0] = delta[0]`, `_m[size-1] = delta[size-2]`,
interior points get the PCHIP harmonic-mean slope or 0.  Each `delta` access
is an explicit bounds-checked read, so the result is `none` exactly when the
C code reads `delta` out of bounds (as it does when `size = 1`, where
`delta` has no entries and `size - 2` underflows). -/
def updateSlopes (pts : List (ℚ × ℚ)) : Option (List ℚ) :=
  let size := pts.length
  let delta := segSlopes pts
  collectReads ((List.range size).map (fun i =>
    if i = 0 then delta[0]?
    else if i = size - 1 then delta[size - 2]?
    else do
      let dl ← delta[i - 1]?
      let dr ← delta[i]?
      pure (if dl * dr > 0 then 2 * dl * dr / (dl + dr) else 0)))

/-- State of a `CubicHermiteMonotonicSplineTable`: the live table points and
the derivative array `_m`.  `m = none` records that the last recomputation
performed an out-of-bounds read, leaving `_m` holding unspecified values. -/
structure HermiteState where
  pts : List (ℚ × ℚ)
  m : Option (List ℚ)
  deriving DecidableEq, Repr

/-- `CubicHermiteMonotonicSplineTable()`: empty table, `_m` zeroed. -/
def hermiteInit : HermiteState :=
  { pts := [], m := some (List.replicate 8 0) }

/-- `CubicHermiteMonotonicSplineTable::pushPoint`: base-class insertion,
then `updateSlopes()` on success. -/
def hermitePush (s : HermiteState) (xv fv : ℚ) : Bool × HermiteState :=
  let (success, pts) := pushPoint s.pts xv fv
  if success then (true, { pts := pts, m := updateSlopes pts })
  else (false, s)

/-- The scan `pos = 1; while (value > x(pos)) pos++;` of
`splineInterpolation`, started at `pos`, with fuel bounding the remaining
iterations.  The C loop stops in bounds whenever `value < x(size-1)`, which
the caller's boundary checks guarantee; the model stops once the reads
would leave the array. -/
def scanPosAux : ℕ → List ℚ → ℚ → ℕ → ℕ
  | 0, _, _, pos => pos
  | n + 1, xs, value, pos =>
    if pos < xs.length then
      if value > xs.getD pos 0 then scanPosAux n xs value (pos + 1) else pos
    else pos

/-- The segment scan of `splineInterpolation`, started at position `pos`. -/
def scanPos (xs : List ℚ) (value : ℚ) (pos : ℕ) : ℕ :=
  scanPosAux xs.length xs value pos

/-- `CubicHermiteMonotonicSplineTable::splineInterpolation`, given the live
points and the derivative array `ms`. -/
def splineInterpolation (pts : List (ℚ × ℚ)) (ms : List ℚ) (value : ℚ) : ℚ :=
  let size := pts.length
  if value ≤ xAt pts 0 then fxAt pts 0
  else if value ≥ xAt pts (size - 1) then fxAt pts (size - 1)
  else
    let pos := scanPos (pts.map Prod.fst) value 1
    let h := xAt pts pos - xAt pts (pos - 1)
    let t := (value - xAt pts (pos - 1)) / h
    let t2 := t * t
    let t3 := t2 * t
    let h00 := 2 * t3 - 3 * t2 + 1
    let h10 := t3 - 2 * t2 + t
    let h01 := -2 * t3 + 3 * t2
    let h11 := t3 - t2
    let y0 := fxAt pts (pos - 1)
    let y1 := fxAt pts pos
    let m0 := (ms.getD (pos - 1) 0) * h
    let m1 := (ms.getD pos 0) * h
    h00 * y0 + h10 * m0 + h01 * y1 + h11 * m1

/-- `CubicHermiteMonotonicSplineTable::apply`, given a defined derivative
array `ms`. -/
def hermiteApply (pts : List (ℚ × ℚ)) (ms : List ℚ) (value : ℚ) : ℚ :=
  if pts.length < 2 then fxAt pts 0
  else splineInterpolation pts ms value

/-! ## Sensor pipeline slots -/

/-- The pipeline's processor slot array: 5 slots, each `nullptr` (`none`) or
a processor reference (identified by a numeric handle). -/
structure SensorSlots where
  processor : Fin 5 → Option ℕ
  deriving DecidableEq

/-- `GenericSensor()`: all 5 slots `nullptr`. -/
def sensorInit : SensorSlots := { processor := fun _ => none }

/-- `GenericSensor::setMapper`: `if (idx < 3) processor[idx] = proc;`. -/
def setMapper (s : SensorSlots) (idx : ℕ) (proc : ℕ) : SensorSlots :=
  if h : idx < 3 then
    { processor := Function.update s.processor ⟨idx, by omega⟩ (some proc) }
  else s

/-- `GenericSensor::setFilter`: `if (idx < 2) processor[idx + 3] = proc;`. -/
def setFilter (s : SensorSlots) (idx : ℕ) (proc : ℕ) : SensorSlots :=
  if h : idx < 2 then
    { processor := Function.update s.processor ⟨idx + 3, by omega⟩ (some proc) }
  else s

/-! ## RTD385 resistance-to-temperature inversion

`RTD385::apply` calls `sqrtf`, so this component is modelled over `ℝ` with
`Real.sqrt`. -/

/-- Arduino `constrain` on floats. -/
noncomputable def constrainR (amt low high : ℝ) : ℝ :=
  if amt < low then low else if amt > high then high else amt

/-- `RTD385` configuration: `R0, A, B, C` live in `cfg.f[0..3]`, plus the
private precomputed member `inv`. -/
structure RTDState where
  R0 : ℝ
  A : ℝ
  B : ℝ
  C : ℝ
  inv : ℝ

/-- `RTD385(r0)`: loads the IEC 60751 coefficients and sets
`inv = 2.0f * B() * R0()`. -/
noncomputable def rtd385Init (r0 : ℝ) : RTDState :=
  { R0 := r0, A := 3.9083e-3, B := -5.775e-7, C := -4.183e-12,
    inv := 2 * (-5.775e-7) * r0 }

/-- One Newton-Raphson refinement step of `RTD385::apply` on the full CVD
residual at clamped resistance `Rc`. -/
noncomputable def rtdNewtonStep (s : RTDState) (Rc T : ℝ) : ℝ :=
  let T2 := T * T
  let T3 := T2 * T
  let f := s.R0 * (1 + s.A * T + s.B * T2 + s.C * (T - 100) * T3) - Rc
  let fp := s.R0 * (s.A + 2 * s.B * T + s.C * T2 * (4 * T - 300))
  T - f / fp

/-- `RTD385::apply`. -/
noncomputable def rtd385Apply (s : RTDState) (R : ℝ) : ℝ :=
  let Rc := constrainR R (s.R0 * 0.185201) (s.R0 * 3.904811)
  let a := s.B * s.R0
  let b := s.A * s.R0
  let c := s.R0 - Rc
  let d := b * b - 4 * a * c
  let T := (-b + Real.sqrt d) * s.inv
  if Rc ≥ s.R0 then T
  else
    let T1 := (9.4974362e-05 * T + 1.0078029) * T + 2.5965757e-03
    rtdNewtonStep s Rc (rtdNewtonStep s Rc T1)

/-- Modelled from the spec (claim wording): the exact quadratic closed-form
root of the C = 0 Callendar-Van Dusen equation,
`(-A*R0 + sqrt((A*R0)^2 - 4*(B*R0)*(R0 - R))) / (2*B*R0)`. -/
noncomputable def rtdQuadraticClosedForm (R0 A B R : ℝ) : ℝ :=
  (-(A * R0) + Real.sqrt ((A * R0) ^ 2 - 4 * (B * R0) * (R0 - R))) / (2 * (B * R0))

/-! ## Table value bounds (for the no-overshoot property) -/

/-- The least stored `f(x)` value of a table. -/
def minFx (pts : List (ℚ × ℚ)) : ℚ :=
  ((pts.map Prod.snd).min?).getD 0

/-- The greatest stored `f(x)` value of a table. -/
def maxFx (pts : List (ℚ × ℚ)) : ℚ :=
  ((pts.map Prod.snd).max?).getD 0

/-- Strict ascending order of the stored x values. -/
def StrictAscX (pts : List (ℚ × ℚ)) : Prop :=
  pts.Pairwise (fun p q => p.1 < q.1)

instance (pts : List (ℚ × ℚ)) : Decidable (StrictAscX pts) := by
  unfold StrictAscX; infer_instance

/-- Weak ascending order of the stored x values (what `sortAscending`
guarantees). -/
def SortedX (pts : List (ℚ × ℚ)) : Prop :=
  pts.Pairwise (fun p q => p.1 ≤ q.1)

instance (pts : List (ℚ × ℚ)) : Decidable (SortedX pts) := by
  unfold SortedX; infer_instance

/-- The Kalman filter state after the priming call with input `x` followed
by `n` further `apply(x)` calls, for `measurementNoise = r` and
`processNoise = 0`. -/
def kalmanRepeatState (r x : ℚ) : ℕ → KalmanState
  | 0 => (kalmanApply (kalmanInit r 0) x).2
  | n + 1 => (kalmanApply (kalmanRepeatState r x n) x).2

/-- A `CubicHermiteMonotonicSplineTable` populated by pushing the given
points in order. -/
def buildHermite (ps : List (ℚ × ℚ)) : HermiteState :=
  ps.foldl (fun s p => (hermitePush s p.1 p.2).2) hermiteInit

/-! ## Theorems -/

/-- Claim C6: each of the five concrete filters (EMAFilter, AlphaBetaFilter,
AdaptiveAbsoluteEMAFilter, KalmanFilter, Median3Filter), in its freshly
constructed state, returns the input unchanged on the first `apply` call,
for every input and every constructor parameter. -/
theorem filters_first_apply_identity (a b q r x : ℚ) :
    (emaApply (emaInit a) x).1 = x ∧
    (abApply (abInit a b) x).1 = x ∧
    (adaptApply (adaptInit a b) x).map Prod.fst = some x ∧
    (kalmanApply (kalmanInit r q) x).1 = x ∧
    (median3Apply median3Init x).1 = x := by
  refine ⟨?_, ?_, ?_, ?_, ?_⟩ <;>
    simp [emaApply, emaInit, abApply, abInit, adaptApply, adaptInit,
      kalmanApply, kalmanInit, median3Apply, median3Init]

/-- Claim C10: `CubicSplineTable::apply` returns its input unchanged for
every input value and every table content reachable by any sequence of
table operations — the slot is a pure pass-through. -/
theorem cubicSpline_apply_identity (ops : List TableOp) (v : ℚ) :
    cubicSplineApply (runTableOps ops) v = v := rfl

/-- Claim C9: `GenericSensor::setMapper` with `idx ≥ 3` and
`GenericSensor::setFilter` with `idx ≥ 2` leave every processor slot
unchanged; an in-range `setMapper idx` writes exactly slot `idx` and an
in-range `setFilter idx` writes exactly slot `idx + 3`, leaving all other
slots untouched.  Stated pointwise over all five slots. -/
theorem slot_assignment_guarded (s : SensorSlots) (idx : ℕ) (p : ℕ) (j : Fin 5) :
    (setMapper s idx p).processor j =
      (if idx < 3 ∧ j.val = idx then some p else s.processor j) ∧
    (setFilter s idx p).processor j =
      (if idx < 2 ∧ j.val = idx + 3 then some p else s.processor j) := by
  constructor
  · unfold setMapper
    by_cases h : idx < 3
    · simp only [dif_pos h, Function.update_apply]
      by_cases hj : j = (⟨idx, by omega⟩ : Fin 5)
      · have : j.val = idx := by rw [hj]
        simp [hj, h, this]
      · have : ¬ j.val = idx := fun hv => hj (Fin.ext hv)
        simp [hj, this]
    · simp [dif_neg h, h]
  · unfold setFilter
    by_cases h : idx < 2
    · simp only [dif_pos h, Function.update_apply]
      by_cases hj : j = (⟨idx + 3, by omega⟩ : Fin 5)
      · have : j.val = idx + 3 := by rw [hj]
        simp [hj, h, this]
      · have : ¬ j.val = idx + 3 := fun hv => hj (Fin.ext hv)
        simp [hj, this]
    · simp [dif_neg h, h]

/-- Claim C2 (code evaluated at the failing inputs): `setFloat` always lands
inside the 16-slot `f` array for every index, but `setByte` clamps its
index to 11 on the 8-slot `u` array, so `setByte(11, v)` writes out of
bounds (modelled as `none`), and `setUnits` does not clamp at all, so
`setUnits(2, v)` writes out of the 2-slot `unit` array. -/
theorem config_setter_bounds :
    (∀ i v, (setFloat cfg0 i v).isSome = true) ∧
    setByte cfg0 11 7 = none ∧
    setUnits cfg0 2 5 = none := by
  refine ⟨fun i v => ?_, by decide, by decide⟩
  simp only [setFloat, writeAt, constrainN, cfg0]
  split
  · simp
  · split
    · simp
    · simp
      omega

/-- Claim C3 counterexample: construct an `AdaptiveAbsoluteEMAFilter` with
`alpha_min = 1/2` and `delta_max = 0`, prime it with 3, then apply 10: the
recomputation of alpha divides by zero (`mapf` with `in_max - in_min = 0`),
so the call has no defined result — it does not return the raw input 10. -/
theorem adaptive_dmax0_divzero_counterexample :
    (adaptApply (adaptInit (1/2) 0) 3).bind (fun p => adaptApply p.2 10) = none := by
  simp [adaptApply, adaptInit, mapf]

/-- Claim C3 amended: for an `AdaptiveAbsoluteEMAFilter` with
`delta_max = 0`, every `apply` call after the priming call divides by zero
when recomputing alpha (the linear map's denominator `delta_max - 0` is 0),
so no result is defined; the filter does not use `alpha = 1` and does not
return the raw input. -/
theorem adaptive_dmax0_apply_none (s : AdaptState) (v : ℚ)
    (h0 : s.delta_max = 0) (hi : s.initialized = true) :
    adaptApply s v = none := by
  simp [adaptApply, hi, mapf, h0]

/-- Witness for the amended Claim C3 theorem at a concrete primed state. -/
theorem adaptive_dmax0_apply_none_witness :
    adaptApply ⟨1/2, 0, 1/2, 3, true⟩ 10 = none :=
  adaptive_dmax0_apply_none ⟨1/2, 0, 1/2, 3, true⟩ 10 rfl rfl

/-! ### Selection sort lemmas (for Claims C5 and C7) -/

theorem innerPass_length (a : ℚ × ℚ) (l : List (ℚ × ℚ)) :
    (innerPass a l).2.length = l.length := by
  induction l generalizing a with
  | nil => rfl
  | cons b rest ih =>
    simp only [innerPass]
    by_cases h : b.1 < a.1 <;> simp [h, ih]

theorem innerPass_perm (a : ℚ × ℚ) (l : List (ℚ × ℚ)) :
    ((innerPass a l).1 :: (innerPass a l).2).Perm (a :: l) := by
  induction l generalizing a with
  | nil => simp [innerPass]
  | cons b rest ih =>
    simp only [innerPass]
    by_cases h : b.1 < a.1
    · simp only [if_pos h]
      exact (List.Perm.swap a _ _).trans ((ih b).cons a)
    · simp only [if_neg h]
      exact (List.Perm.swap b _ _).trans (((ih a).cons b).trans (List.Perm.swap a b rest))

theorem innerPass_min (a : ℚ × ℚ) (l : List (ℚ × ℚ)) :
    (innerPass a l).1.1 ≤ a.1 ∧ ∀ p ∈ (innerPass a l).2, (innerPass a l).1.1 ≤ p.1 := by
  induction l generalizing a with
  | nil => simp [innerPass]
  | cons b rest ih =>
    simp only [innerPass]
    by_cases h : b.1 < a.1
    · simp only [if_pos h]
      obtain ⟨h1, h2⟩ := ih b
      refine ⟨h1.trans h.le, fun p hp => ?_⟩
      rcases List.mem_cons.mp hp with rfl | hp
      · exact h1.trans h.le
      · exact h2 p hp
    · simp only [if_neg h]
      obtain ⟨h1, h2⟩ := ih a
      refine ⟨h1, fun p hp => ?_⟩
      rcases List.mem_cons.mp hp with rfl | hp
      · exact h1.trans (not_lt.mp h)
      · exact h2 p hp

theorem sortAscendingAux_perm :
    ∀ (n : ℕ) (l : List (ℚ × ℚ)), l.length ≤ n → (sortAscendingAux n l).Perm l := by
  intro n
  induction n with
  | zero =>
    intro l h
    rw [List.eq_nil_of_length_eq_zero (Nat.le_zero.mp h)]
    exact List.Perm.refl _
  | succ n ih =>
    intro l h
    match l with
    | [] => simp [sortAscendingAux]
    | a :: rest =>
      simp only [sortAscendingAux]
      have hr : (innerPass a rest).2.length ≤ n := by
        rw [innerPass_length]
        simpa using h
      exact ((ih _ hr).cons _).trans (innerPass_perm a rest)

theorem sortAscending_perm (l : List (ℚ × ℚ)) : (sortAscending l).Perm l :=
  sortAscendingAux_perm _ _ le_rfl

theorem sortAscendingAux_sorted :
    ∀ (n : ℕ) (l : List (ℚ × ℚ)), l.length ≤ n → SortedX (sortAscendingAux n l) := by
  intro n
  induction n with
  | zero =>
    intro l h
    rw [List.eq_nil_of_length_eq_zero (Nat.le_zero.mp h)]
    exact List.Pairwise.nil
  | succ n ih =>
    intro l h
    match l with
    | [] => exact List.Pairwise.nil
    | a :: rest =>
      simp only [sortAscendingAux, SortedX, List.pairwise_cons]
      have hr : (innerPass a rest).2.length ≤ n := by
        rw [innerPass_length]
        simpa using h
      refine ⟨fun p hp => ?_, ih _ hr⟩
      have hmem : p ∈ (innerPass a rest).2 :=
        ((sortAscendingAux_perm n _ hr).mem_iff).mp hp
      exact (innerPass_min a rest).2 p hmem

theorem sortAscending_sorted (l : List (ℚ × ℚ)) : SortedX (sortAscending l) :=
  sortAscendingAux_sorted _ _ le_rfl

theorem tableStep_length_le (pts : List (ℚ × ℚ)) (op : TableOp)
    (h : pts.length ≤ 8) : (tableStep pts op).length ≤ 8 := by
  cases op with
  | push xv fv =>
    simp only [tableStep, pushPoint]
    by_cases hf : pts.length ≥ 8
    · simpa [hf]
    · have := (sortAscending_perm (pts ++ [(xv, fv)])).length_eq
      simp only [hf, if_neg, ite_false]
      simp only [this, List.length_append, List.length_singleton]
      omega
  | del idx =>
    simp only [tableStep, deletePoint]
    by_cases hf : idx ≥ pts.length
    · simpa [hf]
    · have := List.length_eraseIdx_le pts idx
      simp only [hf, ite_false]
      omega

/-- Claim C5: for every table state and every sequence of operations —
every successful `pushPoint` leaves the stored x values sorted ascending;
any operation sequence from the empty table keeps the size at most 8;
`pushPoint` on a full table fails and changes nothing; `deletePoint` of an
in-range index succeeds and compacts the remaining points with no gaps;
`deletePoint` of an out-of-range index fails and changes nothing. -/
theorem table_invariants :
    (∀ pts xv fv, (pushPoint pts xv fv).1 = true → SortedX (pushPoint pts xv fv).2) ∧
    (∀ ops, (runTableOps ops).length ≤ 8) ∧
    (∀ pts xv fv, 8 ≤ pts.length → pushPoint pts xv fv = (false, pts)) ∧
    (∀ pts idx, idx < pts.length →
      (deletePoint pts idx).1 = true ∧
      (deletePoint pts idx).2.length + 1 = pts.length ∧
      (∀ j, j < idx → (deletePoint pts idx).2[j]? = pts[j]?) ∧
      (∀ j, idx ≤ j → (deletePoint pts idx).2[j]? = pts[j + 1]?)) ∧
    (∀ pts idx, pts.length ≤ idx → deletePoint pts idx = (false, pts)) := by
  refine ⟨?_, ?_, ?_, ?_, ?_⟩
  · intro pts xv fv hs
    by_cases hf : pts.length ≥ 8
    · simp [pushPoint, hf] at hs
    · simp only [pushPoint, hf, ite_false]
      exact sortAscending_sorted _
  · intro ops
    have aux : ∀ (os : List TableOp) (pts : List (ℚ × ℚ)), pts.length ≤ 8 →
        (os.foldl tableStep pts).length ≤ 8 := by
      intro os
      induction os with
      | nil => intro pts h; simpa using h
      | cons op rest ih =>
        intro pts h
        exact ih _ (tableStep_length_le pts op h)
    simpa [runTableOps] using aux ops [] (by simp)
  · intro pts xv fv h
    simp [pushPoint, h]
  · intro pts idx h
    have hne : ¬ idx ≥ pts.length := by omega
    refine ⟨by simp [deletePoint, hne], ?_, fun j hj => ?_, fun j hj => ?_⟩
    · simp only [deletePoint, hne, ite_false]
      rw [List.length_eraseIdx_of_lt h]
      omega
    · simp only [deletePoint, hne, ite_false]
      exact List.getElem?_eraseIdx_of_lt pts idx j hj
    · simp only [deletePoint, hne, ite_false]
      exact List.getElem?_eraseIdx_of_ge pts idx j hj
  · intro pts idx h
    simp [deletePoint, h]

/-- Witness for Claim C5 at concrete inputs: a successful out-of-order
insertion ends sorted, and deleting index 5 of a 2-entry table fails. -/
theorem table_invariants_witness :
    SortedX (pushPoint [(3, 1), (1, 2)] 2 5).2 ∧
    deletePoint [(1, 2), (3, 4)] 5 = (false, [(1, 2), (3, 4)]) :=
  ⟨table_invariants.1 [(3, 1), (1, 2)] 2 5 (by decide),
   table_invariants.2.2.2.2 [(1, 2), (3, 4)] 5 (by decide)⟩

/-! ### Kalman gain behaviour (Claim C8) -/

theorem kalmanRepeatState_fields (r x : ℚ) (n : ℕ) :
    (kalmanRepeatState r x n).r = r ∧ (kalmanRepeatState r x n).q = 0 ∧
    (kalmanRepeatState r x n).initialized = true := by
  induction n with
  | zero => simp [kalmanRepeatState, kalmanApply, kalmanInit]
  | succ n ih =>
    obtain ⟨h1, h2, h3⟩ := ih
    simp [kalmanRepeatState, kalmanApply, h1, h2, h3]

theorem kalmanRepeatState_estimate (r x : ℚ) (n : ℕ) :
    (kalmanRepeatState r x n).estimate = x := by
  induction n with
  | zero => simp [kalmanRepeatState, kalmanApply, kalmanInit]
  | succ n ih =>
    have h3 := (kalmanRepeatState_fields r x n).2.2
    simp [kalmanRepeatState, kalmanApply, h3, ih]

theorem kalmanRepeatState_error (r x : ℚ) (hr : 0 < r) (n : ℕ) :
    (kalmanRepeatState r x n).error_estimate = r / (r + n) := by
  induction n with
  | zero =>
    simp [kalmanRepeatState, kalmanApply, kalmanInit, div_self hr.ne.symm]
  | succ n ih =>
    obtain ⟨h1, h2, h3⟩ := kalmanRepeatState_fields r x n
    have hrn : (0 : ℚ) < r + n := by positivity
    have hrn1 : (0 : ℚ) < r + (n + 1) := by positivity
    have he : (kalmanRepeatState r x n).error_estimate + r ≠ 0 := by
      rw [ih]
      positivity
    simp only [kalmanRepeatState, kalmanApply, h3, if_neg, Bool.true_eq_false, ite_false,
      h1, h2, add_zero, ih]
    push_cast
    field_simp
    ring

theorem kalmanGain_closed_form (r x : ℚ) (hr : 0 < r) (n : ℕ) :
    kalmanGain (kalmanRepeatState r x n) = 1 / (r + n + 1) := by
  obtain ⟨h1, h2, _⟩ := kalmanRepeatState_fields r x n
  have hrn : (0 : ℚ) < r + n := by positivity
  rw [kalmanGain, h1, h2, kalmanRepeatState_error r x hr n, add_zero]
  have hd : r / (r + n) + r ≠ 0 := by positivity
  have hd1 : (0 : ℚ) < r + n + 1 := by positivity
  field_simp
  ring

/-- Claim C8: for `processNoise = 0` and `measurementNoise = r > 0`, feeding
the same input `x` repeatedly after the priming call, the estimate stays
exactly `x` (every call returns `x`), and the Kalman gain of each successive
call is strictly decreasing, positive, and falls below every positive bound
eventually (it tends to 0). -/
theorem kalman_q0_gain_decreasing (r x : ℚ) (hr : 0 < r) :
    (∀ n, (kalmanRepeatState r x n).estimate = x) ∧
    (∀ n, (kalmanApply (kalmanRepeatState r x n) x).1 = x) ∧
    (∀ n, kalmanGain (kalmanRepeatState r x (n + 1)) < kalmanGain (kalmanRepeatState r x n)) ∧
    (∀ n, 0 < kalmanGain (kalmanRepeatState r x n)) ∧
    (∀ ε : ℚ, 0 < ε → ∃ N : ℕ, ∀ n, N ≤ n → kalmanGain (kalmanRepeatState r x n) < ε) := by
  refine ⟨kalmanRepeatState_estimate r x, fun n => ?_, fun n => ?_, fun n => ?_, fun ε hε => ?_⟩
  · have h3 := (kalmanRepeatState_fields r x n).2.2
    simp [kalmanApply, h3, kalmanRepeatState_estimate r x n]
  · rw [kalmanGain_closed_form r x hr, kalmanGain_closed_form r x hr]
    have h1 : (0 : ℚ) < r + n + 1 := by positivity
    apply one_div_lt_one_div_of_lt h1
    push_cast
    linarith
  · rw [kalmanGain_closed_form r x hr]
    positivity
  · refine ⟨⌈1 / ε⌉₊, fun n hn => ?_⟩
    rw [kalmanGain_closed_form r x hr]
    have hcast : (1 : ℚ) / ε ≤ (n : ℚ) := by
      calc (1 : ℚ) / ε ≤ (⌈1 / ε⌉₊ : ℚ) := Nat.le_ceil _
        _ ≤ (n : ℚ) := by exact_mod_cast Nat.cast_le.mpr hn
    have h1 : (0 : ℚ) < r + n + 1 := by positivity
    rw [div_lt_iff₀ h1]
    have hlt : (1 : ℚ) / ε < r + n + 1 := by linarith
    have hmul := mul_lt_mul_of_pos_right hlt hε
    have hone : (1 / ε) * ε = 1 := by field_simp
    nlinarith [hmul, hone]

/-- Witness for Claim C8 at `r = 1`, `x = 5`: the second post-priming gain
is below the first, and the estimate is still 5 after three calls. -/
theorem kalman_q0_gain_decreasing_witness :
    (kalmanRepeatState 1 5 3).estimate = 5 ∧
    kalmanGain (kalmanRepeatState 1 5 1) < kalmanGain (kalmanRepeatState 1 5 0) :=
  ⟨(kalman_q0_gain_decreasing 1 5 (by norm_num)).1 3,
   (kalman_q0_gain_decreasing 1 5 (by norm_num)).2.2.1 0⟩

/-! ### Slope recomputation (Claim C4) -/

theorem collectReads_all_some (l : List ℕ) (f : ℕ → Option ℚ)
    (h : ∀ i ∈ l, (f i).isSome) :
    collectReads (l.map f) = some (l.map (fun i => (f i).getD 0)) := by
  induction l with
  | nil => rfl
  | cons a rest ih =>
    have ha := h a (List.mem_cons_self a rest)
    obtain ⟨v, hv⟩ := Option.isSome_iff_exists.mp ha
    have ihr := ih (fun i hi => h i (List.mem_cons_of_mem a hi))
    simp [collectReads, hv, ihr, Option.getD]

theorem length_segSlopes (pts : List (ℚ × ℚ)) :
    (segSlopes pts).length = pts.length - 1 := by
  simp only [segSlopes, List.length_zipWith, List.length_tail]
  omega

theorem segSlopes_getD (pts : List (ℚ × ℚ)) (i : ℕ) (h : i + 1 < pts.length) :
    (segSlopes pts).getD i 0 =
      (fxAt pts (i + 1) - fxAt pts i) / (xAt pts (i + 1) - xAt pts i) := by
  have hp : pts[i]? = some (pts.get ⟨i, by omega⟩) := List.getElem?_eq_getElem (by omega)
  have hq : pts[i + 1]? = some (pts.get ⟨i + 1, h⟩) := List.getElem?_eq_getElem h
  simp only [segSlopes, List.getD_eq_getElem?_getD, List.getElem?_zipWith,
    List.getElem?_tail, hp, hq, fxAt, xAt, List.get_eq_getElem]
  simp

/-- Per-index description of a defined `updateSlopes` run: what the claim
says each `_m[i]` must hold. -/
def SlopeSpec (pts : List (ℚ × ℚ)) (ms : List ℚ) : Prop :=
  ms.length = pts.length ∧
  ms.getD 0 0 = (segSlopes pts).getD 0 0 ∧
  ms.getD (pts.length - 1) 0 = (segSlopes pts).getD (pts.length - 2) 0 ∧
  ∀ i, 0 < i → i < pts.length - 1 →
    ms.getD i 0 =
      (if (segSlopes pts).getD (i - 1) 0 * (segSlopes pts).getD i 0 > 0 then
        2 * (segSlopes pts).getD (i - 1) 0 * (segSlopes pts).getD i 0 /
          ((segSlopes pts).getD (i - 1) 0 + (segSlopes pts).getD i 0)
      else 0)

theorem getD_map_range (f : ℕ → ℚ) (n i : ℕ) (h : i < n) :
    ((List.range n).map f).getD i 0 = f i := by
  simp [List.getD_eq_getElem?_getD, List.getElem?_range h]

theorem updateSlopes_defined (pts : List (ℚ × ℚ)) (h2 : 2 ≤ pts.length) :
    ∃ ms, updateSlopes pts = some ms ∧ SlopeSpec pts ms := by
  have hdl : (segSlopes pts).length = pts.length - 1 := length_segSlopes pts
  set n := pts.length with hn
  set delta := segSlopes pts with hdelta
  set f : ℕ → Option ℚ := fun i =>
    if i = 0 then delta[0]?
    else if i = n - 1 then delta[n - 2]?
    else do
      let dl ← delta[i - 1]?
      let dr ← delta[i]?
      pure (if dl * dr > 0 then 2 * dl * dr / (dl + dr) else 0) with hf
  have e0 : delta[0]? = some (delta.get ⟨0, by omega⟩) :=
    List.getElem?_eq_getElem (by omega)
  have e1 : delta[n - 2]? = some (delta.get ⟨n - 2, by omega⟩) :=
    List.getElem?_eq_getElem (by omega)
  have hsome : ∀ i ∈ List.range n, (f i).isSome := by
    intro i hi
    have hi' : i < n := List.mem_range.mp hi
    by_cases h0 : i = 0
    · simp [hf, h0, e0]
    · by_cases hl : i = n - 1
      · have hne : ¬ (n - 1 = 0) := by omega
        simp [hf, h0, hl, hne, e1]
      · have ev1 : delta[i - 1]? = some (delta.get ⟨i - 1, by omega⟩) :=
          List.getElem?_eq_getElem (by omega)
        have ev2 : delta[i]? = some (delta.get ⟨i, by omega⟩) :=
          List.getElem?_eq_getElem (by omega)
        simp [hf, h0, hl, ev1, ev2]
  have hcr : updateSlopes pts = some ((List.range n).map (fun i => (f i).getD 0)) := by
    unfold updateSlopes
    exact collectReads_all_some (List.range n) f hsome
  refine ⟨_, hcr, ?_, ?_, ?_, ?_⟩
  · simp [hn]
  · rw [getD_map_range _ _ _ (by omega)]
    simp [hf, e0, List.getD_eq_getElem?_getD]
  · rw [getD_map_range _ _ _ (by omega)]
    have hne : ¬ (n - 1 = 0) := by omega
    simp [hf, hne, e1, List.getD_eq_getElem?_getD, ← hn]
  · intro i hi0 hil
    rw [getD_map_range _ _ _ (by omega)]
    have h0 : ¬ (i = 0) := by omega
    have hl : ¬ (i = n - 1) := by omega
    have ev1 : delta[i - 1]? = some (delta.get ⟨i - 1, by omega⟩) :=
      List.getElem?_eq_getElem (by omega)
    have ev2 : delta[i]? = some (delta.get ⟨i, by omega⟩) :=
      List.getElem?_eq_getElem (by omega)
    simp [hf, h0, hl, ev1, ev2, List.getD_eq_getElem?_getD]

/-- Claim C4 counterexample: the very first insertion into an empty
`CubicHermiteMonotonicSplineTable` succeeds, but the slope recomputation
reads the zero-length local `delta` array out of bounds (`delta[0]` and
`delta[size - 2]` with `size = 1`), so it is not well-defined. -/
theorem hermite_first_push_oob :
    (hermitePush hermiteInit 1 2).1 = true ∧
    (hermitePush hermiteInit 1 2).2.m = none := by
  constructor <;> rfl

/-- Claim C4 amended: after every successful `pushPoint` onto a table that
already held at least one point (so the new size is at least 2), the slope
recomputation reads only in-bounds entries of the segment-slope and
derivative arrays, and yields endpoint derivatives equal to the adjacent
segment slope `(f(x_{i+1})-f(x_i))/(x_{i+1}-x_i)` and interior derivatives
equal to `2*d_{i-1}*d_i/(d_{i-1}+d_i)` when the neighbouring segment slopes
have the same sign, else 0.  The first insertion into an empty table is
excluded: there the recomputation reads out of bounds. -/
theorem hermite_push_slopes (s : HermiteState) (xv fv : ℚ)
    (hne : s.pts ≠ []) (hok : (hermitePush s xv fv).1 = true) :
    2 ≤ (hermitePush s xv fv).2.pts.length ∧
    ∃ ms, (hermitePush s xv fv).2.m = some ms ∧
      SlopeSpec (hermitePush s xv fv).2.pts ms := by
  by_cases hf : s.pts.length ≥ 8
  · exfalso
    simp [hermitePush, pushPoint, hf] at hok
  · have hlen2 : 2 ≤ (sortAscending (s.pts ++ [(xv, fv)])).length := by
      rw [(sortAscending_perm _).length_eq, List.length_append]
      have : 1 ≤ s.pts.length := List.length_pos.mpr hne
      simp only [List.length_singleton]
      omega
    simp only [hermitePush, pushPoint, hf, ite_false, if_pos rfl]
    exact ⟨hlen2, updateSlopes_defined _ hlen2⟩

/-- Witness for the amended Claim C4 theorem: pushing (1, 1) onto a table
holding (0, 0) succeeds and produces defined slopes. -/
theorem hermite_push_slopes_witness :
    2 ≤ (hermitePush ⟨[(0, 0)], updateSlopes [(0, 0)]⟩ 1 1).2.pts.length ∧
    ∃ ms, (hermitePush ⟨[(0, 0)], updateSlopes [(0, 0)]⟩ 1 1).2.m = some ms ∧
      SlopeSpec (hermitePush ⟨[(0, 0)], updateSlopes [(0, 0)]⟩ 1 1).2.pts ms :=
  hermite_push_slopes ⟨[(0, 0)], updateSlopes [(0, 0)]⟩ 1 1 (by decide) (by decide)

/-! ### RTD quadratic branch (Claim C1) -/

/-- Claim C1 evaluated at the failing input `R0 = 100` (default), `R = 110`
(inside the claimed range, `T ≥ 0` branch): `RTD385::apply` returns
`(-A*R0 + sqrt(d)) * (2*B*R0)` — it multiplies by the precomputed member
`inv = 2.0f*B()*R0()` — which differs from the claim's closed form
`(-A*R0 + sqrt(d)) / (2*B*R0)` (the division the commented-out line and the
header's accuracy statement intend, for which `inv` would have to hold the
reciprocal). -/
theorem rtd385_apply_mul_not_div :
    rtd385Apply (rtd385Init 100) 110 =
      (-(3.9083e-3 * 100) + Real.sqrt ((3.9083e-3 * 100) * (3.9083e-3 * 100) -
        4 * ((-5.775e-7) * 100) * (100 - 110))) * (2 * (-5.775e-7) * 100) ∧
    rtd385Apply (rtd385Init 100) 110 ≠
      rtdQuadraticClosedForm 100 3.9083e-3 (-5.775e-7) 110 := by
  have harg : (3.9083e-3 * 100 : ℝ) * (3.9083e-3 * 100) -
      4 * ((-5.775e-7) * 100) * (100 - 110) = 0.1504380889 := by norm_num
  have happly : rtd385Apply (rtd385Init 100) 110 =
      (-(0.39083) + Real.sqrt 0.1504380889) * (-0.0001155) := by
    unfold rtd385Apply rtd385Init constrainR
    norm_num
  constructor
  · rw [happly, harg]
    norm_num
  · have hclosed : rtdQuadraticClosedForm 100 3.9083e-3 (-5.775e-7) 110 =
        (-(0.39083) + Real.sqrt 0.1504380889) / (-0.0001155) := by
      unfold rtdQuadraticClosedForm
      norm_num
    rw [happly, hclosed]
    have hs_lt : Real.sqrt 0.1504380889 < 0.39083 := by
      rw [Real.sqrt_lt' (by norm_num : (0 : ℝ) < 0.39083)]
      norm_num
    have hu_neg : -(0.39083 : ℝ) + Real.sqrt 0.1504380889 < 0 := by linarith
    intro heq
    set u : ℝ := -(0.39083) + Real.sqrt 0.1504380889 with hu
    have hk : (-0.0001155 : ℝ) ≠ 0 := by norm_num
    have h2 : u * (-0.0001155) * (-0.0001155) = u := by
      rw [heq]
      field_simp
    have h3 : u * ((-0.0001155 : ℝ) * (-0.0001155) - 1) = 0 := by ring_nf; linarith [h2]
    have h4 : ((-0.0001155 : ℝ) * (-0.0001155) - 1) ≠ 0 := by norm_num
    have h5 : u = 0 := by
      rcases mul_eq_zero.mp h3 with h | h
      · exact h
      · exact absurd h h4
    linarith

/-! ### No-overshoot property of the monotone Hermite spline (Claim C7) -/

theorem innerPass_id (a : ℚ × ℚ) (l : List (ℚ × ℚ))
    (h : ∀ b ∈ l, ¬ b.1 < a.1) : innerPass a l = (a, l) := by
  induction l with
  | nil => rfl
  | cons b rest ih =>
    have hb := h b (List.mem_cons_self b rest)
    have hr := ih (fun c hc => h c (List.mem_cons_of_mem b hc))
    simp only [innerPass, if_neg hb, hr]

theorem sortAscendingAux_id :
    ∀ (n : ℕ) (l : List (ℚ × ℚ)), SortedX l → l.length ≤ n →
      sortAscendingAux n l = l := by
  intro n
  induction n with
  | zero =>
    intro l _ h
    rw [List.eq_nil_of_length_eq_zero (Nat.le_zero.mp h)]
    rfl
  | succ n ih =>
    intro l hs h
    match l with
    | [] => rfl
    | a :: rest =>
      have ha : ∀ b ∈ rest, a.1 ≤ b.1 := (List.pairwise_cons.mp hs).1
      have hid := innerPass_id a rest (fun b hb => not_lt.mpr (ha b hb))
      simp only [sortAscendingAux, hid]
      rw [ih rest (List.pairwise_cons.mp hs).2 (by simpa using h)]

theorem sortAscending_id (l : List (ℚ × ℚ)) (h : SortedX l) :
    sortAscending l = l :=
  sortAscendingAux_id _ _ h le_rfl

theorem hermiteFold_spec :
    ∀ (ps : List (ℚ × ℚ)) (s : HermiteState),
      SortedX (s.pts ++ ps) → (s.pts ++ ps).length ≤ 8 →
      (ps.foldl (fun s p => (hermitePush s p.1 p.2).2) s).pts = s.pts ++ ps ∧
      (ps = [] ∨
        (ps.foldl (fun s p => (hermitePush s p.1 p.2).2) s).m =
          updateSlopes (s.pts ++ ps)) := by
  intro ps
  induction ps with
  | nil =>
    intro s _ _
    simp
  | cons p rest ih =>
    intro s hsort hlen
    have hlt : ¬ (s.pts.length ≥ 8) := by
      simp only [List.length_append, List.length_cons] at hlen
      omega
    have hsub : List.Sublist (s.pts ++ [p]) (s.pts ++ p :: rest) :=
      List.Sublist.append_left ((List.cons_sublist_cons).mpr (List.nil_sublist rest)) s.pts
    have hpref : SortedX (s.pts ++ [p]) := List.Pairwise.sublist hsub hsort
    have hstep : (hermitePush s p.1 p.2).2 =
        ⟨s.pts ++ [p], updateSlopes (s.pts ++ [p])⟩ := by
      simp [hermitePush, pushPoint, hlt, sortAscending_id _ hpref]
    have happ : (s.pts ++ [p]) ++ rest = s.pts ++ p :: rest := by simp
    rw [List.foldl_cons, hstep]
    obtain ⟨hpts, hm⟩ := ih ⟨s.pts ++ [p], updateSlopes (s.pts ++ [p])⟩
      (by rw [happ]; exact hsort) (by rw [happ]; exact hlen)
    refine ⟨by rw [hpts, happ], Or.inr ?_⟩
    rcases hm with hm | hm
    · subst hm
      simp
    · rw [hm, happ]

/-- The blended Hermite basis value `h01 + a*h10 + b*h11` lies in `[0, 1]`
for `t ∈ [0, 1]` and tangent ratios `a, b ∈ [0, 3]` (the Fritsch-Carlson
box; the PCHIP construction keeps ratios in `[0, 2]`). -/
theorem hermite_basis_bound (t a b : ℚ) (ht0 : 0 ≤ t) (ht1 : t ≤ 1)
    (ha0 : 0 ≤ a) (ha3 : a ≤ 3) (hb0 : 0 ≤ b) (hb3 : b ≤ 3) :
    0 ≤ (-2 * t ^ 3 + 3 * t ^ 2) + a * (t ^ 3 - 2 * t ^ 2 + t) + b * (t ^ 3 - t ^ 2) ∧
    (-2 * t ^ 3 + 3 * t ^ 2) + a * (t ^ 3 - 2 * t ^ 2 + t) + b * (t ^ 3 - t ^ 2) ≤ 1 := by
  have h1t : 0 ≤ 1 - t := by linarith
  have hp : 0 ≤ t * (1 - t) ^ 2 := mul_nonneg ht0 (sq_nonneg _)
  have hq : 0 ≤ t ^ 2 * (1 - t) := mul_nonneg (sq_nonneg t) h1t
  have hcube : 0 ≤ t ^ 3 := pow_nonneg ht0 3
  have hcube1 : 0 ≤ (1 - t) ^ 3 := pow_nonneg h1t 3
  have hap : 0 ≤ a * (t * (1 - t) ^ 2) := mul_nonneg ha0 hp
  have h3bq : 0 ≤ (3 - b) * (t ^ 2 * (1 - t)) := mul_nonneg (by linarith) hq
  have h3ap : 0 ≤ (3 - a) * (t * (1 - t) ^ 2) := mul_nonneg (by linarith) hp
  have hbq : 0 ≤ b * (t ^ 2 * (1 - t)) := mul_nonneg hb0 hq
  constructor <;> nlinarith [hap, h3bq, h3ap, hbq, hcube, hcube1]

/-- The PCHIP harmonic-mean tangent `2*u*v/(u+v)` (for neighbouring segment
slopes of equal sign) is a multiple `a * v` of each neighbouring slope with
ratio `a ∈ [0, 3]` (in fact `(0, 2)`). -/
theorem harmonic_ratio (u v : ℚ) (huv : 0 < u * v) :
    ∃ a, 0 ≤ a ∧ a ≤ 3 ∧ 2 * u * v / (u + v) = a * v := by
  rcases mul_pos_iff.mp huv with ⟨hu, hv⟩ | ⟨hu, hv⟩
  · have hsum : 0 < u + v := by linarith
    refine ⟨2 * u / (u + v), by positivity, ?_, ?_⟩
    · rw [div_le_iff₀ hsum]
      linarith
    · field_simp
  · have hsum : u + v < 0 := by linarith
    refine ⟨2 * u / (u + v), ?_, ?_, ?_⟩
    · rw [div_nonneg_iff]
      right
      constructor <;> linarith
    · rw [div_le_iff_of_neg hsum]
      linarith
    · field_simp

theorem minFx_le (pts : List (ℚ × ℚ)) (y : ℚ) (hy : y ∈ pts.map Prod.snd) :
    minFx pts ≤ y := by
  unfold minFx
  cases h : (pts.map Prod.snd).min? with
  | none =>
    rw [List.min?_eq_none_iff] at h
    rw [h] at hy
    simp at hy
  | some a =>
    simp only [Option.getD_some]
    exact (List.le_min?_iff (fun a b c => le_min_iff) h).mp le_rfl y hy

theorem le_maxFx (pts : List (ℚ × ℚ)) (y : ℚ) (hy : y ∈ pts.map Prod.snd) :
    y ≤ maxFx pts := by
  unfold maxFx
  cases h : (pts.map Prod.snd).max? with
  | none =>
    rw [List.max?_eq_none_iff] at h
    rw [h] at hy
    simp at hy
  | some a =>
    simp only [Option.getD_some]
    exact (List.max?_le_iff (fun a b c => max_le_iff) h).mp le_rfl y hy

theorem fxAt_mem (pts : List (ℚ × ℚ)) (i : ℕ) (h : i < pts.length) :
    fxAt pts i ∈ pts.map Prod.snd := by
  have hp : pts[i]? = some (pts.get ⟨i, h⟩) := List.getElem?_eq_getElem h
  rw [fxAt, hp]
  simp only [Option.map_some, Option.getD_some, List.get_eq_getElem]
  exact List.mem_map_of_mem Prod.snd (List.getElem_mem h)

/-- Both tangents of segment `j` produced by the PCHIP slope update are
bounded multiples of the segment's own slope: `_m[j] = a*d_j` and
`_m[j+1] = b*d_j` with `a, b ∈ [0, 3]`. -/
theorem tangent_ratios (pts : List (ℚ × ℚ)) (ms : List ℚ)
    (hspec : SlopeSpec pts ms) (j : ℕ) (hj : j + 1 < pts.length) :
    (∃ a, 0 ≤ a ∧ a ≤ 3 ∧ ms.getD j 0 = a * (segSlopes pts).getD j 0) ∧
    (∃ b, 0 ≤ b ∧ b ≤ 3 ∧ ms.getD (j + 1) 0 = b * (segSlopes pts).getD j 0) := by
  obtain ⟨hlen, h0, hlast, hint⟩ := hspec
  constructor
  · by_cases hj0 : j = 0
    · subst hj0
      exact ⟨1, by norm_num, by norm_num, by rw [h0, one_mul]⟩
    · have hj1 : 0 < j := Nat.pos_of_ne_zero hj0
      have hjn : j < pts.length - 1 := by omega
      have hj' := hint j hj1 hjn
      by_cases hpos : (segSlopes pts).getD (j - 1) 0 * (segSlopes pts).getD j 0 > 0
      · rw [hj', if_pos hpos]
        exact harmonic_ratio _ _ hpos
      · rw [hj', if_neg hpos]
        exact ⟨0, le_rfl, by norm_num, by rw [zero_mul]⟩
  · by_cases hjl : j + 1 = pts.length - 1
    · have hj2 : pts.length - 2 = j := by omega
      refine ⟨1, by norm_num, by norm_num, ?_⟩
      rw [hjl, hlast, hj2, one_mul]
    · have hint1 : 0 < j + 1 := Nat.succ_pos j
      have hint2 : j + 1 < pts.length - 1 := by omega
      have hj' := hint (j + 1) hint1 hint2
      have hsub : j + 1 - 1 = j := rfl
      rw [hsub] at hj'
      by_cases hpos : (segSlopes pts).getD j 0 * (segSlopes pts).getD (j + 1) 0 > 0
      · rw [hj', if_pos hpos]
        have hswap : 2 * (segSlopes pts).getD j 0 * (segSlopes pts).getD (j + 1) 0 /
            ((segSlopes pts).getD j 0 + (segSlopes pts).getD (j + 1) 0) =
            2 * (segSlopes pts).getD (j + 1) 0 * (segSlopes pts).getD j 0 /
            ((segSlopes pts).getD (j + 1) 0 + (segSlopes pts).getD j 0) := by
          ring_nf
        obtain ⟨b, hb0, hb3, heq⟩ :=
          harmonic_ratio ((segSlopes pts).getD (j + 1) 0) ((segSlopes pts).getD j 0)
            (by rw [mul_comm]; exact hpos)
        exact ⟨b, hb0, hb3, by rw [hswap]; exact heq⟩
      · rw [hj', if_neg hpos]
        exact ⟨0, le_rfl, by norm_num, by rw [zero_mul]⟩

/-- The segment scan stops at the first index at or after `pos` whose x
value is at least the probe, given such an index exists. -/
theorem scanPosAux_spec :
    ∀ (fuel : ℕ) (xs : List ℚ) (v : ℚ) (pos : ℕ),
      pos < xs.length → xs.length ≤ fuel + pos →
      (∃ j, pos ≤ j ∧ j < xs.length ∧ v ≤ xs.getD j 0) →
      pos ≤ scanPosAux fuel xs v pos ∧
      scanPosAux fuel xs v pos < xs.length ∧
      v ≤ xs.getD (scanPosAux fuel xs v pos) 0 ∧
      (∀ k, pos ≤ k → k < scanPosAux fuel xs v pos → xs.getD k 0 < v) := by
  intro fuel
  induction fuel with
  | zero =>
    intro xs v pos h1 h2 _
    omega
  | succ fuel ih =>
    intro xs v pos h1 h2 hex
    simp only [scanPosAux, if_pos h1]
    by_cases hgt : v > xs.getD pos 0
    · rw [if_pos hgt]
      obtain ⟨j, hj1, hj2, hj3⟩ := hex
      have hjne : j ≠ pos := by
        intro h
        subst h
        exact absurd hj3 (not_le.mpr hgt)
      have hpos1 : pos + 1 < xs.length := by omega
      obtain ⟨c1, c2, c3, c4⟩ := ih xs v (pos + 1) hpos1 (by omega)
        ⟨j, by omega, hj2, hj3⟩
      refine ⟨by omega, c2, c3, fun k hk1 hk2 => ?_⟩
      by_cases hkp : k = pos
      · subst hkp
        exact hgt
      · exact c4 k (by omega) hk2
    · rw [if_neg hgt]
      exact ⟨le_rfl, h1, not_lt.mp hgt, fun k hk1 hk2 => by omega⟩

/-- On one segment, the cubic Hermite blend with tangents `a*(y1-y0)` and
`b*(y1-y0)` scaled by ratios in `[0, 3]` stays between the endpoint values. -/
theorem hermite_segment_bound (t a b y0 y1 : ℚ) (ht0 : 0 ≤ t) (ht1 : t ≤ 1)
    (ha0 : 0 ≤ a) (ha3 : a ≤ 3) (hb0 : 0 ≤ b) (hb3 : b ≤ 3) :
    min y0 y1 ≤
      (2 * (t * t * t) - 3 * (t * t) + 1) * y0 +
      (t * t * t - 2 * (t * t) + t) * (a * (y1 - y0)) +
      (-2 * (t * t * t) + 3 * (t * t)) * y1 +
      (t * t * t - t * t) * (b * (y1 - y0)) ∧
    (2 * (t * t * t) - 3 * (t * t) + 1) * y0 +
      (t * t * t - 2 * (t * t) + t) * (a * (y1 - y0)) +
      (-2 * (t * t * t) + 3 * (t * t)) * y1 +
      (t * t * t - t * t) * (b * (y1 - y0)) ≤ max y0 y1 := by
  obtain ⟨hg0, hg1⟩ := hermite_basis_bound t a b ht0 ht1 ha0 ha3 hb0 hb3
  constructor
  · rcases le_total y0 y1 with hy | hy
    · rw [min_eq_left hy]
      nlinarith [mul_nonneg (sub_nonneg.mpr hy) hg0]
    · rw [min_eq_right hy]
      nlinarith [mul_nonneg (sub_nonneg.mpr hy) (sub_nonneg.mpr hg1)]
  · rcases le_total y0 y1 with hy | hy
    · rw [max_eq_right hy]
      nlinarith [mul_nonneg (sub_nonneg.mpr hy) (sub_nonneg.mpr hg1)]
    · rw [max_eq_left hy]
      nlinarith [mul_nonneg (sub_nonneg.mpr hy) hg0]

theorem xAt_getD_map (pts : List (ℚ × ℚ)) (k : ℕ) :
    (pts.map Prod.fst).getD k 0 = xAt pts k := by
  simp only [xAt, List.getD_eq_getElem?_getD, List.getElem?_map]

theorem xAt_lt (pts : List (ℚ × ℚ)) (hstrict : StrictAscX pts) (i j : ℕ)
    (hij : i < j) (hj : j < pts.length) : xAt pts i < xAt pts j := by
  have hi : i < pts.length := lt_trans hij hj
  have hpi : pts[i]? = some (pts.get ⟨i, hi⟩) := List.getElem?_eq_getElem hi
  have hpj : pts[j]? = some (pts.get ⟨j, hj⟩) := List.getElem?_eq_getElem hj
  rw [xAt, xAt, hpi, hpj]
  simp only [Option.map_some, Option.getD_some, List.get_eq_getElem]
  exact List.pairwise_iff_getElem.mp hstrict i j hi hj hij

theorem scanPos_spec (xs : List ℚ) (v : ℚ) (h1 : 1 < xs.length)
    (hex : ∃ j, 1 ≤ j ∧ j < xs.length ∧ v ≤ xs.getD j 0) :
    1 ≤ scanPos xs v 1 ∧ scanPos xs v 1 < xs.length ∧
    v ≤ xs.getD (scanPos xs v 1) 0 ∧
    (∀ k, 1 ≤ k → k < scanPos xs v 1 → xs.getD k 0 < v) :=
  scanPosAux_spec xs.length xs v 1 h1 (by omega) hex

/-- Inside the table's x-range, `splineInterpolation` (hence `apply`) stays
within the stored f(x) values, for any strictly x-ascending table whose
derivative array satisfies the PCHIP description. -/
theorem splineInterpolation_in_range (pts : List (ℚ × ℚ)) (ms : List ℚ)
    (hstrict : StrictAscX pts) (h2 : 2 ≤ pts.length) (hspec : SlopeSpec pts ms)
    (v : ℚ) :
    minFx pts ≤ hermiteApply pts ms v ∧ hermiteApply pts ms v ≤ maxFx pts := by
  have hn2 : ¬ (pts.length < 2) := by omega
  have hmem0lo : minFx pts ≤ fxAt pts 0 := minFx_le _ _ (fxAt_mem _ 0 (by omega))
  have hmem0hi : fxAt pts 0 ≤ maxFx pts := le_maxFx _ _ (fxAt_mem _ 0 (by omega))
  have hmemLlo : minFx pts ≤ fxAt pts (pts.length - 1) :=
    minFx_le _ _ (fxAt_mem _ (pts.length - 1) (by omega))
  have hmemLhi : fxAt pts (pts.length - 1) ≤ maxFx pts :=
    le_maxFx _ _ (fxAt_mem _ (pts.length - 1) (by omega))
  unfold hermiteApply
  rw [if_neg hn2]
  by_cases hc1 : v ≤ xAt pts 0
  · simp only [splineInterpolation]
    rw [if_pos hc1]
    exact ⟨hmem0lo, hmem0hi⟩
  · by_cases hc2 : v ≥ xAt pts (pts.length - 1)
    · simp only [splineInterpolation]
      rw [if_neg hc1, if_pos hc2]
      exact ⟨hmemLlo, hmemLhi⟩
    · have hx0 : xAt pts 0 < v := not_le.mp hc1
      have hxn : v < xAt pts (pts.length - 1) := not_le.mp hc2
      have hlenxs : (pts.map Prod.fst).length = pts.length := List.length_map _ _
      obtain ⟨c1, c2, c3, c4⟩ := scanPos_spec (pts.map Prod.fst) v (by omega)
        ⟨pts.length - 1, by omega, by omega,
          by rw [xAt_getD_map]; exact le_of_lt hxn⟩
      simp only [splineInterpolation]
      rw [if_neg hc1, if_neg hc2]
      set r := scanPos (pts.map Prod.fst) v 1 with hrdef
      have hrn : r < pts.length := by omega
      have hvr : v ≤ xAt pts r := by rw [← xAt_getD_map]; exact c3
      have hprev : xAt pts (r - 1) < v := by
        by_cases hre : r = 1
        · rw [hre]
          exact hx0
        · have hk := c4 (r - 1) (by omega) (by omega)
          rw [xAt_getD_map] at hk
          exact hk
      have hh : 0 < xAt pts r - xAt pts (r - 1) :=
        sub_pos.mpr (xAt_lt pts hstrict (r - 1) r (by omega) hrn)
      have hhne : xAt pts r - xAt pts (r - 1) ≠ 0 := ne_of_gt hh
      have hrr : r - 1 + 1 = r := by omega
      have hd := segSlopes_getD pts (r - 1) (by omega)
      rw [hrr] at hd
      obtain ⟨⟨a, ha0, ha3, hma⟩, ⟨b, hb0, hb3, hmb⟩⟩ :=
        tangent_ratios pts ms hspec (r - 1) (by omega)
      rw [hrr] at hmb
      have hm0 : ms.getD (r - 1) 0 * (xAt pts r - xAt pts (r - 1)) =
          a * (fxAt pts r - fxAt pts (r - 1)) := by
        rw [hma, hd]
        field_simp
      have hm1 : ms.getD r 0 * (xAt pts r - xAt pts (r - 1)) =
          b * (fxAt pts r - fxAt pts (r - 1)) := by
        rw [hmb, hd]
        field_simp
      rw [hm0, hm1]
      set t := (v - xAt pts (r - 1)) / (xAt pts r - xAt pts (r - 1)) with htdef
      have ht0 : 0 ≤ t := le_of_lt (div_pos (sub_pos.mpr hprev) hh)
      have ht1 : t ≤ 1 := by
        rw [htdef, div_le_one hh]
        linarith
      obtain ⟨hseg1, hseg2⟩ := hermite_segment_bound t a b
        (fxAt pts (r - 1)) (fxAt pts r) ht0 ht1 ha0 ha3 hb0 hb3
      have hy0lo : minFx pts ≤ fxAt pts (r - 1) :=
        minFx_le _ _ (fxAt_mem _ (r - 1) (by omega))
      have hy1lo : minFx pts ≤ fxAt pts r := minFx_le _ _ (fxAt_mem _ r hrn)
      have hy0hi : fxAt pts (r - 1) ≤ maxFx pts :=
        le_maxFx _ _ (fxAt_mem _ (r - 1) (by omega))
      have hy1hi : fxAt pts r ≤ maxFx pts := le_maxFx _ _ (fxAt_mem _ r hrn)
      constructor
      · exact le_trans (le_min hy0lo hy1lo) hseg1
      · exact le_trans hseg2 (max_le hy0hi hy1hi)

/-- Claim C7: a `CubicHermiteMonotonicSplineTable` built by `pushPoint` from
a strictly x-increasing point set of 2 to 8 points stores exactly those
points, has a defined derivative array, and for every input within the
table's x-range `apply` returns a value inside `[min f(x), max f(x)]` of the
stored values — no overshoot. -/
theorem hermite_no_overshoot (ps : List (ℚ × ℚ)) (hstrict : StrictAscX ps)
    (h2 : 2 ≤ ps.length) (h8 : ps.length ≤ 8) (v : ℚ)
    (_hlo : xAt ps 0 ≤ v) (_hhi : v ≤ xAt ps (ps.length - 1)) :
    (buildHermite ps).pts = ps ∧
    ∃ ms, (buildHermite ps).m = some ms ∧
      minFx ps ≤ hermiteApply ps ms v ∧ hermiteApply ps ms v ≤ maxFx ps := by
  have hsorted : SortedX ps := hstrict.imp le_of_lt
  obtain ⟨hpts, hm⟩ := hermiteFold_spec ps hermiteInit
    (by simpa [hermiteInit] using hsorted) (by simpa [hermiteInit] using h8)
  have hne : ps ≠ [] := by
    intro h
    rw [h] at h2
    simp at h2
  have hm' : (buildHermite ps).m = updateSlopes ps := by
    rcases hm with hnil | hm
    · exact absurd hnil hne
    · simpa [buildHermite, hermiteInit] using hm
  obtain ⟨ms, hms, hspec⟩ := updateSlopes_defined ps h2
  obtain ⟨hb1, hb2⟩ := splineInterpolation_in_range ps ms hstrict h2 hspec v
  exact ⟨by simpa [buildHermite, hermiteInit] using hpts,
    ms, by rw [hm', hms], hb1, hb2⟩

/-- Witness for Claim C7: the table built from (0,0), (1,1), (2,4) keeps its
points, has a defined derivative array, and `apply` at 1/2 stays within the
stored value range [0, 4]. -/
theorem hermite_no_overshoot_witness :
    (buildHermite [(0, 0), (1, 1), (2, 4)]).pts = [(0, 0), (1, 1), (2, 4)] ∧
    ((buildHermite [(0, 0), (1, 1), (2, 4)]).m).isSome = true ∧
    minFx [(0, 0), (1, 1), (2, 4)] ≤
      hermiteApply [(0, 0), (1, 1), (2, 4)]
        (((buildHermite [(0, 0), (1, 1), (2, 4)]).m).getD []) (1/2) ∧
    hermiteApply [(0, 0), (1, 1), (2, 4)]
        (((buildHermite [(0, 0), (1, 1), (2, 4)]).m).getD []) (1/2) ≤
      maxFx [(0, 0), (1, 1), (2, 4)] := by
  obtain ⟨h1, ms, hm, h3, h4⟩ := hermite_no_overshoot [(0, 0), (1, 1), (2, 4)]
    (by decide) (by decide) (by decide) (1/2) (by norm_num [xAt]) (by norm_num [xAt])
  rw [hm]
  exact ⟨h1, rfl, h3, h4⟩

end GenericSensor
